import Mathlib

/-!
Shallow embedding of `src/advanced-vector/vector.h`: a dynamic array
(`Vector<T>`) built on a raw storage owner (`RawMemory<T>`).  The live region
of the buffer is modelled as a `List α` and the capacity of the underlying
raw block as a `Nat`.  Standard-library bulk operations
(`std::move_backward`, `std::move`, `std::copy`) are modelled by their
documented functional semantics on lists.  Fallible element construction
(a constructor or copy constructor that may throw) is modelled by
`Option`-returning operations, and for the exception-safety development the
construction/destruction of slots in freshly allocated storage is recorded
explicitly.
-/

namespace AdvancedVector

/-- State of a `Vector<T>`: the live elements occupying slots `[0, size_)`
and the capacity of the underlying `RawMemory` block. -/
structure Vec (α : Type) where
  elems : List α
  cap : Nat
deriving Repr, DecidableEq

variable {α : Type}

/-- Number of live elements (`size_`, returned by `Vector::Size`). -/
def Vec.size (v : Vec α) : Nat := v.elems.length

/-- Default-constructed vector: no storage, no elements. -/
def Vec.empty : Vec α := ⟨[], 0⟩

/-- Size constructor `Vector(size_t)`: allocate `n` slots and
value-initialize all of them; `d` is the value-initialized element. -/
def Vec.ofSize (d : α) (n : Nat) : Vec α := ⟨List.replicate n d, n⟩

/-- Capacity chosen by the reallocating branch of `Vector::Emplace`:
`size_ == 0 ? 1 : size_ * 2`. -/
def newCapacity (sz : Nat) : Nat := if sz = 0 then 1 else sz * 2

/-- Functional semantics of `std::move_backward(b + first, b + last, b + dlast)`
on a buffer `b`: the range `[first, last)` is transferred to the range ending
at `dlast`; slots before the destination range and slots from `dlast` on keep
their previous contents. -/
def moveBackwardRange (b : List α) (first last dlast : Nat) : List α :=
  b.take (dlast - (last - first)) ++ (b.drop first).take (last - first) ++ b.drop dlast

/-- Functional semantics of `std::move(b + first, b + last, b + dfirst)` with
`dfirst ≤ first` (shift toward the front): the range `[first, last)` is
transferred to the range starting at `dfirst`. -/
def moveFrontRange (b : List α) (first last dfirst : Nat) : List α :=
  b.take dfirst ++ (b.drop first).take (last - first) ++ b.drop (dfirst + (last - first))

/-- Functional semantics of `std::copy(src.begin(), src.begin() + m,
dst.begin())`: the first `m` slots of `dst` are overwritten by assignment. -/
def copyRange (src dst : List α) (m : Nat) : List α := src.take m ++ dst.drop m

/-- Outcome of a run of `std::uninitialized_copy_n` / `uninitialized_move_n`
into fresh storage, with explicit lifetime accounting: the values produced
(`none` if an element operation threw), the destination slot offsets that were
constructed during the run, and the destination slot offsets that were
destroyed during the run (on a throwing construction the standard algorithm
destroys every element it had already constructed). -/
structure CopyTrace (α : Type) where
  result : Option (List α)
  constructed : List Nat
  destroyed : List Nat
deriving Repr

/-- Run of `std::uninitialized_copy_n(src, src.length, dest + base)` with a
fallible per-element copy `f` (`f a = none` models a throwing copy
constructor; `fun a => some a` is the infallible case, which also covers
`uninitialized_move_n` with a no-fail move). -/
def uninitCopyNTr (f : α → Option α) (base : Nat) : List α → CopyTrace α
  | [] => ⟨some [], [], []⟩
  | a :: as =>
    match f a with
    | none => ⟨none, [], []⟩
    | some b =>
      let t := uninitCopyNTr f (base + 1) as
      match t.result with
      | none => ⟨none, base :: t.constructed, t.destroyed ++ [base]⟩
      | some bs => ⟨some (b :: bs), base :: t.constructed, t.destroyed⟩

/-- Trace of one execution of the reallocating branch of `Vector::Emplace`:
the resulting vector (`none` when an exception propagated), the new-storage
slots constructed and destroyed over the whole run, the new-storage slots
destroyed by the two catch handlers specifically, and whether the old
elements were destroyed and the old block given up (`data_.Swap(new_data_)`). -/
structure ReallocRun (α : Type) where
  result : Option (Vec α)
  constructed : List Nat
  destroyed : List Nat
  handlerDestroyed : List Nat
  oldDestroyed : Bool
deriving Repr

/-- Reallocating branch of `Vector::Emplace` at index `i` with fallible
element operations.  `mkElem` models `new (new_data_ + index) T(args...)`
(`none` = that constructor threw) and `f` models the per-element relocation
done by `CopyOrMoveNElem`.  Mirrors the source: construct the new element at
offset `index` in the new block; relocate the prefix `[0, index)` and on
failure destroy the new element and rethrow; relocate the suffix
`[index, size_)` to offsets `[index + 1, size_ + 1)` and on failure destroy
slots `[0, index]` of the new block and rethrow; only on full success destroy
the old elements and swap the blocks. -/
def emplaceReallocTr (f : α → Option α) (mkElem : Option α) (v : Vec α) (i : Nat) :
    ReallocRun α :=
  match mkElem with
  | none => ⟨none, [], [], [], false⟩
  | some x =>
    let pre := uninitCopyNTr f 0 (v.elems.take i)
    match pre.result with
    | none =>
      ⟨none, i :: pre.constructed, pre.destroyed ++ [i], [i], false⟩
    | some preVals =>
      let suf := uninitCopyNTr f (i + 1) (v.elems.drop i)
      match suf.result with
      | none =>
        ⟨none, i :: pre.constructed ++ suf.constructed,
          pre.destroyed ++ suf.destroyed ++ List.range' 0 (i + 1),
          List.range' 0 (i + 1), false⟩
      | some sufVals =>
        ⟨some ⟨preVals ++ x :: sufVals, newCapacity v.size⟩,
          i :: pre.constructed ++ suf.constructed,
          pre.destroyed ++ suf.destroyed, [], true⟩

/-- Observable state of the vector after running the reallocating emplace: on
success the new state; on an exception `*this` was never modified, so the
state on entry. -/
def emplaceReallocExec (f : α → Option α) (mkElem : Option α) (v : Vec α) (i : Nat) :
    Vec α :=
  match (emplaceReallocTr f mkElem v i).result with
  | none => v
  | some w => w

/-- In-place branch of `Vector::Emplace` (taken when
`data_.Capacity() >= size_ + 1`), with the new value `x` already
materialized: the source runs `new T(std::forward<Args>(args)...)` before any
element is relocated or shifted.  If `pos == end()` the element is constructed
directly into the next free slot; otherwise the last element is relocated into
the free slot (`CopyOrMoveNElem(data_ + size_ - 1, 1, data_ + size_)`), the
displaced range is shifted by `std::move_backward`, and `x` is assigned into
slot `i`.  Returns the new state and the index of the returned iterator. -/
def Vec.emplaceInPlace (v : Vec α) (i : Nat) (x : α) : Vec α × Nat :=
  if i = v.size then
    (⟨v.elems ++ [x], v.cap⟩, i)
  else
    let n := v.size
    let b1 := v.elems ++ v.elems.drop (n - 1)
    let b2 := moveBackwardRange b1 i (n - 1) n
    (⟨b2.set i x, v.cap⟩, i)

/-- `Vector::Emplace(begin() + i, x)` at the value level: dispatch between the
in-place branch and the reallocating branch; element operations cannot fail
here, so the reallocating branch is its trace model with the infallible copy. -/
def Vec.emplace (v : Vec α) (i : Nat) (x : α) : Vec α × Nat :=
  if v.size + 1 ≤ v.cap then
    v.emplaceInPlace i x
  else
    match (emplaceReallocTr (fun a => some a) (some x) v i).result with
    | some w => (w, i)
    | none => (v, i)

/-- `Vector::EmplaceBack` / `Vector::PushBack`: emplace at `cend()`. -/
def Vec.pushBack (v : Vec α) (x : α) : Vec α := (v.emplace v.size x).1

/-- `Vector::PopBack`: if the vector is non-empty, destroy the last live
element and decrement `size_`; otherwise do nothing. -/
def Vec.popBack (v : Vec α) : Vec α :=
  if 0 < v.size then ⟨v.elems.take (v.size - 1), v.cap⟩ else v

/-- `Vector::Erase(begin() + i)`: `std::move` the elements after `i` one slot
toward the front, destroy the vacated last slot, decrement `size_`.  Returns
the new state and the index of the returned iterator. -/
def Vec.erase (v : Vec α) (i : Nat) : Vec α × Nat :=
  let n := v.size
  let b1 := moveFrontRange v.elems (i + 1) n i
  (⟨b1.take (n - 1), v.cap⟩, i)

/-- `Vector::Reserve(n)`: if the current capacity is below `n`, allocate a
block of exactly `n` slots, relocate all live elements into it (the
relocation preserves the element values), destroy the old elements and swap
blocks; otherwise do nothing. -/
def Vec.reserve (v : Vec α) (n : Nat) : Vec α :=
  if v.cap < n then ⟨v.elems, n⟩ else v

/-- `Vector::Resize(n)`: equal size returns immediately; a smaller size
destroys the trailing elements; a larger size reserves and value-constructs
the new trailing elements (modelled by the value-initialized element `d`). -/
def Vec.resize (d : α) (v : Vec α) (n : Nat) : Vec α :=
  if n = v.size then v
  else if n < v.size then ⟨v.elems.take n, v.cap⟩
  else
    let r := v.reserve n
    ⟨r.elems ++ List.replicate (n - v.size) d, r.cap⟩

/-- Copy constructor `Vector(const Vector&)`: allocate exactly `other.size_`
slots and copy-construct the elements. -/
def Vec.copyCtor (src : Vec α) : Vec α := ⟨src.elems, src.size⟩

/-- `Vector::Swap` (delegating to `RawMemory::Swap` plus a size swap):
returns the two exchanged states. -/
def Vec.swap (a b : Vec α) : Vec α × Vec α := (b, a)

/-- Move constructor `Vector(Vector&&)`: default-construct, then swap with
the source.  Returns `(destination, moved-from source)`. -/
def Vec.moveCtor (src : Vec α) : Vec α × Vec α := Vec.swap Vec.empty src

/-- Move assignment `operator=(Vector&&)`: swap with the source unless
`this == &other` (flag `sameObj`).  Returns `(destination, moved-from
source)`. -/
def Vec.moveAssign (sameObj : Bool) (dst src : Vec α) : Vec α × Vec α :=
  if sameObj then (dst, src) else Vec.swap dst src

/-- Copy assignment `operator=(const Vector&)`: a no-op when
`this == &other` (flag `sameObj`); copy-and-swap when the current capacity
cannot hold the source; otherwise overwrite the overlapping prefix by
assignment, copy-construct any new trailing elements, destroy any excess
trailing elements, and set `size_ = other.size_`. -/
def Vec.copyAssign (sameObj : Bool) (dst src : Vec α) : Vec α :=
  if sameObj then dst
  else if dst.cap < src.size then (Vec.swap dst (Vec.copyCtor src)).1
  else
    let m := min dst.size src.size
    let b := copyRange src.elems dst.elems m
    if dst.size < src.size then
      ⟨b ++ src.elems.drop dst.size, dst.cap⟩
    else
      ⟨b.take src.size, dst.cap⟩

/-- `Vector::Insert(begin() + i, (*this)[s])`: insertion of a copy of the
vector's own element `s`.  Faithful to the evaluation order of the source:
the argument is read when the new `T` is constructed, which happens before
any element is relocated or shifted, so the value read is the one present on
entry. -/
def Vec.insertFromSelf (v : Vec α) (i s : Nat) : Vec α × Nat :=
  match v.elems[s]? with
  | some a => v.emplace i a
  | none => (v, i)

/-- One `PushBack`/`PopBack` operation. -/
inductive VOp (α : Type) where
  | push (x : α)
  | pop
deriving Repr, DecidableEq

/-- Run a sequence of push/pop operations on a vector. -/
def applyOps (v : Vec α) : List (VOp α) → Vec α
  | [] => v
  | .push x :: ops => applyOps (v.pushBack x) ops
  | .pop :: ops => applyOps v.popBack ops

/-- Stepwise size count of a push/pop sequence: a push adds one, a pop
subtracts one floored at zero at that step. -/
def stepSize (n : Nat) : List (VOp α) → Nat
  | [] => n
  | .push _ :: ops => stepSize (n + 1) ops
  | .pop :: ops => stepSize (n - 1) ops

/-- Number of pushes in a sequence. -/
def countPush : List (VOp α) → Nat
  | [] => 0
  | .push _ :: ops => countPush ops + 1
  | .pop :: ops => countPush ops

/-- Number of pops in a sequence. -/
def countPop : List (VOp α) → Nat
  | [] => 0
  | .push _ :: ops => countPop ops
  | .pop :: ops => countPop ops + 1

/-! Helper lemmas about the embedding. -/

theorem size_mk (l : List α) (c : Nat) : (Vec.mk l c).size = l.length := rfl

theorem uninitCopyNTr_none_perm (f : α → Option α) :
    ∀ (l : List α) (base : Nat), (uninitCopyNTr f base l).result = none →
      (uninitCopyNTr f base l).destroyed.Perm (uninitCopyNTr f base l).constructed
  | [], base => by simp [uninitCopyNTr]
  | a :: as, base => by
    intro h
    cases hfa : f a with
    | none => simp [uninitCopyNTr, hfa]
    | some b =>
      cases ht : (uninitCopyNTr f (base + 1) as).result with
      | none =>
        have ih := uninitCopyNTr_none_perm f as (base + 1) ht
        simp only [uninitCopyNTr, hfa, ht]
        exact (ih.append_right [base]).trans (List.perm_append_singleton _ _)
      | some bs =>
        exfalso
        simp [uninitCopyNTr, hfa, ht] at h

theorem uninitCopyNTr_some (f : α → Option α) :
    ∀ (l : List α) (base : Nat) (bs : List α),
      (uninitCopyNTr f base l).result = some bs →
      (uninitCopyNTr f base l).destroyed = [] ∧
      (uninitCopyNTr f base l).constructed = List.range' base l.length
  | [], base, bs => by simp [uninitCopyNTr]
  | a :: as, base, bs => by
    intro h
    cases hfa : f a with
    | none => simp [uninitCopyNTr, hfa] at h
    | some b =>
      cases ht : (uninitCopyNTr f (base + 1) as).result with
      | none => simp [uninitCopyNTr, hfa, ht] at h
      | some cs =>
        have ih := uninitCopyNTr_some f as (base + 1) cs ht
        simp only [uninitCopyNTr, hfa, ht]
        simp only [List.length_cons, List.range'_succ]
        exact ⟨ih.1, by rw [ih.2]⟩

theorem uninitCopyNTr_id :
    ∀ (l : List α) (base : Nat),
      uninitCopyNTr (fun a => some a) base l = ⟨some l, List.range' base l.length, []⟩
  | [], base => by simp [uninitCopyNTr]
  | a :: as, base => by
    simp only [uninitCopyNTr, uninitCopyNTr_id as (base + 1), List.length_cons,
      List.range'_succ]

theorem midInsert_eq (e : List α) (i : Nat) (x : α) (hi : i < e.length) :
    (moveBackwardRange (e ++ e.drop (e.length - 1)) i (e.length - 1) e.length).set i x
      = e.take i ++ x :: e.drop i := by
  have h1 : e.length - (e.length - 1 - i) = i + 1 := by omega
  have htail : (e.drop i).take (e.length - 1 - i) ++ e.drop (e.length - 1) = e.drop i := by
    have h := List.drop_take_append_drop e i (e.length - 1 - i)
    rw [show i + (e.length - 1 - i) = e.length - 1 from by omega] at h
    exact h
  have hb2 : moveBackwardRange (e ++ e.drop (e.length - 1)) i (e.length - 1) e.length
      = e.take (i + 1) ++ e.drop i := by
    unfold moveBackwardRange
    rw [h1, List.take_append_of_le_length (by omega),
      List.drop_append_of_le_length (Nat.le_of_lt hi),
      List.take_append_of_le_length (by rw [List.length_drop]; omega),
      List.drop_left' rfl, List.append_assoc, htail]
  rw [hb2]
  have hlen : i < (e.take (i + 1) ++ e.drop i).length := by
    rw [List.length_append, List.length_take_of_le (by omega), List.length_drop]
    omega
  rw [List.set_eq_take_cons_drop x hlen,
    List.take_append_of_le_length
      (by rw [List.length_take_of_le (by omega : i + 1 ≤ e.length)]; omega),
    List.take_take, Nat.min_eq_left (Nat.le_succ i),
    List.drop_append_of_le_length
      (by rw [List.length_take_of_le (by omega : i + 1 ≤ e.length)]),
    List.drop_eq_nil_of_le
      (by rw [List.length_take_of_le (by omega : i + 1 ≤ e.length)]),
    List.nil_append]

theorem emplaceInPlace_fst_elems (v : Vec α) (i : Nat) (x : α) (hi : i ≤ v.size) :
    (v.emplaceInPlace i x).1.elems = v.elems.take i ++ x :: v.elems.drop i := by
  unfold Vec.emplaceInPlace
  by_cases h : i = v.size
  · subst h
    simp [Vec.size, List.take_of_length_le (Nat.le_refl _),
      List.drop_eq_nil_of_le (Nat.le_refl _)]
  · have hi' : i < v.size := Nat.lt_of_le_of_ne hi h
    simp only [h, if_false]
    exact midInsert_eq v.elems i x hi'

theorem emplaceInPlace_snd (v : Vec α) (i : Nat) (x : α) :
    (v.emplaceInPlace i x).2 = i := by
  unfold Vec.emplaceInPlace
  by_cases h : i = v.size <;> simp [h]

theorem emplaceInPlace_fst_cap (v : Vec α) (i : Nat) (x : α) :
    (v.emplaceInPlace i x).1.cap = v.cap := by
  unfold Vec.emplaceInPlace
  by_cases h : i = v.size <;> simp [h]

theorem emplaceRealloc_id_result (v : Vec α) (i : Nat) (x : α) :
    (emplaceReallocTr (fun a => some a) (some x) v i).result
      = some ⟨v.elems.take i ++ x :: v.elems.drop i, newCapacity v.size⟩ := by
  simp [emplaceReallocTr, uninitCopyNTr_id]

theorem emplace_fst_elems (v : Vec α) (i : Nat) (x : α) (hi : i ≤ v.size) :
    (v.emplace i x).1.elems = v.elems.take i ++ x :: v.elems.drop i := by
  unfold Vec.emplace
  by_cases h : v.size + 1 ≤ v.cap
  · simp only [h, if_true]
    exact emplaceInPlace_fst_elems v i x hi
  · simp [h, emplaceRealloc_id_result]

theorem emplace_snd (v : Vec α) (i : Nat) (x : α) : (v.emplace i x).2 = i := by
  unfold Vec.emplace
  by_cases h : v.size + 1 ≤ v.cap
  · simp only [h, if_true]
    exact emplaceInPlace_snd v i x
  · simp [h, emplaceRealloc_id_result]

theorem emplace_fst_cap (v : Vec α) (i : Nat) (x : α) :
    (v.emplace i x).1.cap = if v.size + 1 ≤ v.cap then v.cap else newCapacity v.size := by
  unfold Vec.emplace
  by_cases h : v.size + 1 ≤ v.cap
  · simp only [h, if_true]
    exact emplaceInPlace_fst_cap v i x
  · simp [h, emplaceRealloc_id_result]

theorem emplace_fst_size (v : Vec α) (i : Nat) (x : α) (hi : i ≤ v.size) :
    (v.emplace i x).1.size = v.size + 1 := by
  have hi' : i ≤ v.elems.length := hi
  show (v.emplace i x).1.elems.length = v.size + 1
  rw [emplace_fst_elems v i x hi]
  simp only [List.length_append, List.length_cons, List.length_drop,
    List.length_take_of_le hi', Vec.size]
  omega

theorem pushBack_elems (v : Vec α) (x : α) : (v.pushBack x).elems = v.elems ++ [x] := by
  unfold Vec.pushBack
  rw [emplace_fst_elems v v.size x (Nat.le_refl _)]
  simp [Vec.size]

theorem pushBack_size (v : Vec α) (x : α) : (v.pushBack x).size = v.size + 1 :=
  emplace_fst_size v v.size x (Nat.le_refl _)

theorem pushBack_cap (v : Vec α) (x : α) :
    (v.pushBack x).cap = if v.size + 1 ≤ v.cap then v.cap else newCapacity v.size :=
  emplace_fst_cap v v.size x

theorem newCapacity_ge (sz : Nat) : sz + 1 ≤ newCapacity sz := by
  unfold newCapacity
  by_cases h : sz = 0 <;> simp [h] <;> omega

theorem pushBack_inv (v : Vec α) (x : α) (h : v.size ≤ v.cap) :
    (v.pushBack x).size ≤ (v.pushBack x).cap := by
  rw [pushBack_size, pushBack_cap]
  by_cases hc : v.size + 1 ≤ v.cap
  · simp [hc]
  · simp only [hc, if_false]
    exact newCapacity_ge v.size

theorem popBack_size (v : Vec α) : v.popBack.size = v.size - 1 := by
  unfold Vec.popBack
  by_cases h : 0 < v.size
  · rw [if_pos h]
    show (List.take (v.size - 1) v.elems).length = v.size - 1
    rw [List.length_take_of_le (by simp only [Vec.size] at h ⊢; omega)]
  · rw [if_neg h]
    simp only [Vec.size] at h ⊢
    omega

theorem popBack_cap (v : Vec α) : v.popBack.cap = v.cap := by
  unfold Vec.popBack
  by_cases h : 0 < v.size <;> simp [h]

theorem take_append_append (a b c : List α) :
    (a ++ b ++ c).take (a.length + b.length) = a ++ b := by
  rw [List.take_append_eq_append_take,
    List.take_of_length_le (by rw [List.length_append]),
    List.length_append, Nat.sub_self, List.take_zero, List.append_nil]

theorem eraseVec_fst_elems (v : Vec α) (i : Nat) (hi : i < v.size) :
    (v.erase i).1.elems = v.elems.take i ++ v.elems.drop (i + 1) := by
  have hi' : i < v.elems.length := hi
  unfold Vec.erase moveFrontRange
  have h2 : (v.elems.drop (i + 1)).take (v.size - (i + 1)) = v.elems.drop (i + 1) :=
    List.take_of_length_le (by simp [Vec.size])
  simp only [h2]
  have h4 : v.size - 1 = (v.elems.take i).length + (v.elems.drop (i + 1)).length := by
    rw [List.length_take_of_le (Nat.le_of_lt hi'), List.length_drop]
    simp only [Vec.size]
    omega
  rw [h4, take_append_append]

theorem eraseVec_fst_cap (v : Vec α) (i : Nat) : (v.erase i).1.cap = v.cap := rfl

theorem eraseVec_snd (v : Vec α) (i : Nat) : (v.erase i).2 = i := rfl

theorem copyAssign_overwrite_eq (dst src : List α) (h2 : ¬ dst.length < src.length) :
    (copyRange src dst (min dst.length src.length)).take src.length = src := by
  unfold copyRange
  rw [Nat.min_eq_right (Nat.le_of_not_lt h2), List.take_length,
    List.take_append_of_le_length (Nat.le_refl _), List.take_length]

theorem copyAssign_extend_eq (dst src : List α) (h2 : dst.length < src.length) :
    copyRange src dst (min dst.length src.length) ++ src.drop dst.length = src := by
  unfold copyRange
  rw [Nat.min_eq_left (Nat.le_of_lt h2), List.drop_length, List.append_nil,
    List.take_append_drop]

theorem copyAssign_elems (dst src : Vec α) :
    (Vec.copyAssign false dst src).elems = src.elems := by
  unfold Vec.copyAssign
  by_cases h1 : dst.cap < src.size
  · simp only [Bool.false_eq_true, if_false, h1, if_true]
    rfl
  · by_cases h2 : dst.size < src.size
    · simp only [Bool.false_eq_true, if_false, h1, h2, if_true]
      exact copyAssign_extend_eq dst.elems src.elems h2
    · simp only [Bool.false_eq_true, if_false, h1, h2]
      exact copyAssign_overwrite_eq dst.elems src.elems h2

theorem copyAssign_size (dst src : Vec α) :
    (Vec.copyAssign false dst src).size = src.size := by
  show (Vec.copyAssign false dst src).elems.length = src.size
  rw [copyAssign_elems]
  rfl

theorem copyAssign_cap (dst src : Vec α) :
    (Vec.copyAssign false dst src).cap = if dst.cap < src.size then src.size else dst.cap := by
  unfold Vec.copyAssign
  by_cases h1 : dst.cap < src.size
  · simp only [Bool.false_eq_true, if_false, h1, if_true]
    rfl
  · by_cases h2 : dst.size < src.size <;>
      simp only [Bool.false_eq_true, if_false, h1, h2, if_true] <;> rfl

theorem reserve_elems (v : Vec α) (n : Nat) : (v.reserve n).elems = v.elems := by
  unfold Vec.reserve
  by_cases h : v.cap < n
  · rw [if_pos h]
  · rw [if_neg h]

theorem reserve_cap (v : Vec α) (n : Nat) :
    (v.reserve n).cap = if v.cap < n then n else v.cap := by
  unfold Vec.reserve
  by_cases h : v.cap < n
  · rw [if_pos h, if_pos h]
  · rw [if_neg h, if_neg h]

theorem applyOps_size_inv (ops : List (VOp α)) :
    ∀ v : Vec α, v.size ≤ v.cap →
      (applyOps v ops).size = stepSize v.size ops ∧
      (applyOps v ops).size ≤ (applyOps v ops).cap := by
  induction ops with
  | nil => exact fun v h => ⟨rfl, h⟩
  | cons op ops ih =>
    intro v h
    cases op with
    | push x =>
      have h' := pushBack_inv v x h
      have hrec := ih (v.pushBack x) h'
      simp only [applyOps, stepSize]
      rw [← pushBack_size v x]
      exact hrec
    | pop =>
      have h' : v.popBack.size ≤ v.popBack.cap := by
        rw [popBack_size, popBack_cap]
        omega
      have hrec := ih v.popBack h'
      simp only [applyOps, stepSize]
      rw [← popBack_size v]
      exact hrec

theorem emplace_inv (v : Vec α) (i : Nat) (x : α) (hi : i ≤ v.size) :
    (v.emplace i x).1.size ≤ (v.emplace i x).1.cap := by
  rw [emplace_fst_size v i x hi, emplace_fst_cap]
  by_cases hc : v.size + 1 ≤ v.cap
  · simp [hc]
  · simp only [hc, if_false]
    exact newCapacity_ge v.size

/-! Claim theorems. -/

/-- C1: on the reallocating path of `Vector::Emplace` (taken when
`capacity < length + 1`), a failure of the element constructor or of an
element relocation makes the operation propagate the failure with the
vector's observable state exactly as before the call; every new-storage slot
constructed during the run is destroyed exactly once and the old storage is
kept; a failure while relocating the prefix makes the catch handler destroy
only the newly constructed element (slot `i`); a failure while relocating the
suffix makes the catch handler destroy everything constructed so far in the
new storage (slots `[0, i]`); the old elements are destroyed and the old
block discarded only when all relocation succeeds. -/
theorem c1_realloc_strong_guarantee (f : α → Option α) (mkElem : Option α)
    (v : Vec α) (i : Nat) (hi : i ≤ v.size) :
    ((emplaceReallocTr f mkElem v i).result = none →
      emplaceReallocExec f mkElem v i = v ∧
      (emplaceReallocTr f mkElem v i).destroyed.Perm
        (emplaceReallocTr f mkElem v i).constructed ∧
      (emplaceReallocTr f mkElem v i).oldDestroyed = false) ∧
    (∀ x, mkElem = some x →
      (uninitCopyNTr f 0 (v.elems.take i)).result = none →
      (emplaceReallocTr f mkElem v i).handlerDestroyed = [i]) ∧
    (∀ x p, mkElem = some x →
      (uninitCopyNTr f 0 (v.elems.take i)).result = some p →
      (uninitCopyNTr f (i + 1) (v.elems.drop i)).result = none →
      (emplaceReallocTr f mkElem v i).handlerDestroyed = List.range' 0 (i + 1)) ∧
    (∀ w, (emplaceReallocTr f mkElem v i).result = some w →
      (emplaceReallocTr f mkElem v i).oldDestroyed = true ∧
      (emplaceReallocTr f mkElem v i).destroyed = []) := by
  have hi' : i ≤ v.elems.length := hi
  cases mkElem with
  | none =>
    exact ⟨fun _ => ⟨rfl, List.Perm.nil, rfl⟩, fun x hx => Option.noConfusion hx,
      fun x p hx => Option.noConfusion hx, fun w hw => Option.noConfusion hw⟩
  | some x =>
    cases hpre : (uninitCopyNTr f 0 (v.elems.take i)).result with
    | none =>
      have hperm := uninitCopyNTr_none_perm f (v.elems.take i) 0 hpre
      refine ⟨fun _ => ⟨?_, ?_, ?_⟩, ?_, ?_, ?_⟩
      · simp [emplaceReallocExec, emplaceReallocTr, hpre]
      · simp only [emplaceReallocTr, hpre]
        exact (hperm.append_right [i]).trans (List.perm_append_singleton _ _)
      · simp [emplaceReallocTr, hpre]
      · intro y hy hn
        simp [emplaceReallocTr, hpre]
      · intro y p hy hp
        exact Option.noConfusion hp
      · intro w hw
        simp [emplaceReallocTr, hpre] at hw
    | some pv =>
      have hpre2 := uninitCopyNTr_some f (v.elems.take i) 0 pv hpre
      have hpc : (uninitCopyNTr f 0 (v.elems.take i)).constructed = List.range' 0 i := by
        rw [hpre2.2, List.length_take_of_le hi']
      cases hsuf : (uninitCopyNTr f (i + 1) (v.elems.drop i)).result with
      | none =>
        have hsperm := uninitCopyNTr_none_perm f (v.elems.drop i) (i + 1) hsuf
        refine ⟨fun _ => ⟨?_, ?_, ?_⟩, ?_, ?_, ?_⟩
        · simp [emplaceReallocExec, emplaceReallocTr, hpre, hsuf]
        · simp only [emplaceReallocTr, hpre, hsuf, hpre2.1, hpc, List.nil_append]
          rw [List.range'_1_concat, Nat.zero_add, ← List.append_assoc]
          have h5 : ((uninitCopyNTr f (i + 1) (v.elems.drop i)).destroyed
              ++ List.range' 0 i).Perm
              (List.range' 0 i ++ (uninitCopyNTr f (i + 1) (v.elems.drop i)).constructed) :=
            List.perm_append_comm.trans (hsperm.append_left _)
          exact (h5.append_right [i]).trans (List.perm_append_singleton _ _)
        · simp [emplaceReallocTr, hpre, hsuf]
        · intro y hy hn
          exact Option.noConfusion hn
        · intro y p hy hp hn
          simp [emplaceReallocTr, hpre, hsuf]
        · intro w hw
          simp [emplaceReallocTr, hpre, hsuf] at hw
      | some sv =>
        have hsuf2 := uninitCopyNTr_some f (v.elems.drop i) (i + 1) sv hsuf
        refine ⟨?_, ?_, ?_, ?_⟩
        · intro hn
          simp [emplaceReallocTr, hpre, hsuf] at hn
        · intro y hy hn
          exact Option.noConfusion hn
        · intro y p hy hp hn
          exact Option.noConfusion hn
        · intro w hw
          constructor
          · simp [emplaceReallocTr, hpre, hsuf]
          · simp [emplaceReallocTr, hpre, hsuf, hpre2.1, hsuf2.1]

/-- Witness for C1 at a concrete input: vector `[3, 4]` with capacity 2,
insertion index 1, every relocation failing. -/
theorem c1_realloc_strong_guarantee_witness :
    1 ≤ (Vec.mk [3, 4] 2 : Vec Nat).size ∧
    emplaceReallocExec (fun _ : Nat => none) (some 5) (Vec.mk [3, 4] 2) 1 = Vec.mk [3, 4] 2 ∧
    (emplaceReallocTr (fun _ : Nat => none) (some 5) (Vec.mk [3, 4] 2) 1).destroyed.Perm
      (emplaceReallocTr (fun _ : Nat => none) (some 5) (Vec.mk [3, 4] 2) 1).constructed ∧
    (emplaceReallocTr (fun _ : Nat => none) (some 5) (Vec.mk [3, 4] 2) 1).handlerDestroyed
      = [1] := by
  have h := c1_realloc_strong_guarantee (fun _ : Nat => none) (some 5)
    (Vec.mk [3, 4] 2) 1 (by decide)
  have h1 := h.1 (by decide)
  exact ⟨by decide, h1.1, h1.2.1, h.2.1 5 rfl (by decide)⟩

/-- C2: a self-referential `Insert` reads the source value before any element
is relocated or shifted: inserting a copy of the vector's own element `s` at
position `i` yields the value that element had on entry, and in particular
`[x, y, z]` with `Insert(begin() + 1, container[0])` yields `[x, x, y, z]`. -/
theorem c2_self_referential_insert (v : Vec α) (i s : Nat) (a : α)
    (hs : v.elems[s]? = some a) (hi : i ≤ v.size) (hc : v.size + 1 ≤ v.cap) :
    (v.insertFromSelf i s).1.elems = v.elems.take i ++ a :: v.elems.drop i ∧
    (v.insertFromSelf i s).1.size = v.size + 1 ∧
    (v.insertFromSelf i s).2 = i ∧
    ∀ x y z : α, (Vec.insertFromSelf ⟨[x, y, z], 4⟩ 1 0).1 = ⟨[x, x, y, z], 4⟩ := by
  unfold Vec.insertFromSelf
  rw [hs]
  exact ⟨emplace_fst_elems v i a hi, emplace_fst_size v i a hi, emplace_snd v i a,
    fun x y z => rfl⟩

/-- Witness for C2: `[7, 8, 9]` with spare capacity, inserting a copy of
element 0 at position 1. -/
theorem c2_self_referential_insert_witness :
    (Vec.mk [7, 8, 9] 4 : Vec Nat).elems[0]? = some 7 ∧
    (Vec.insertFromSelf (Vec.mk [7, 8, 9] 4 : Vec Nat) 1 0).1.elems
      = [7, 8, 9].take 1 ++ 7 :: [7, 8, 9].drop 1 :=
  ⟨by decide,
    (c2_self_referential_insert (Vec.mk [7, 8, 9] 4) 1 0 7 (by decide) (by decide)
      (by decide)).1⟩

/-- C3: a successful `Emplace`/`Insert` at position `i` of a vector of length
`N` yields length `N + 1`, keeps the prefix `[0, i)` unchanged, puts the new
value at index `i`, shifts the old elements `[i, N)` one slot toward the end
in order, and returns the position of the inserted element. -/
theorem c3_emplace_result (v : Vec α) (i : Nat) (x : α) (hi : i ≤ v.size) :
    (v.emplace i x).1.elems = v.elems.take i ++ x :: v.elems.drop i ∧
    (v.emplace i x).1.size = v.size + 1 ∧
    (v.emplace i x).2 = i :=
  ⟨emplace_fst_elems v i x hi, emplace_fst_size v i x hi, emplace_snd v i x⟩

/-- Witness for C3: emplace in the middle of `[1, 2, 3]` at full capacity
(reallocating path). -/
theorem c3_emplace_result_witness :
    1 ≤ (Vec.mk [1, 2, 3] 3 : Vec Nat).size ∧
    (Vec.emplace (Vec.mk [1, 2, 3] 3 : Vec Nat) 1 9).1.elems
      = [1, 2, 3].take 1 ++ 9 :: [1, 2, 3].drop 1 ∧
    (Vec.emplace (Vec.mk [1, 2, 3] 3 : Vec Nat) 1 9).1.size = 4 ∧
    (Vec.emplace (Vec.mk [1, 2, 3] 3 : Vec Nat) 1 9).2 = 1 := by
  have h := c3_emplace_result (Vec.mk [1, 2, 3] 3 : Vec Nat) 1 9 (by decide)
  exact ⟨by decide, h.1, h.2.1, h.2.2⟩

/-- C4 counterexample: after move-assignment the moved-from source is not in
the default (empty) state — the destination's previous contents are swapped
into it.  Here the source ends up holding `[7]` with size 1. -/
theorem c4_counterexample :
    (Vec.moveAssign false ((Vec.empty : Vec Nat).pushBack 7) (Vec.empty.pushBack 9)).2
      ≠ (Vec.empty : Vec Nat) := by decide

/-- C4 (amended): after move-construction the source is default-empty
(size 0, capacity 0) and the destination holds exactly the source's prior
contents; move-assignment exchanges the two states, so the destination holds
the source's prior contents while the source holds the destination's prior
contents; self-move-assignment is a no-op. -/
theorem c4_move_semantics (src dst : Vec α) :
    Vec.moveCtor src = (src, Vec.empty) ∧
    (Vec.empty : Vec α).size = 0 ∧
    (Vec.empty : Vec α).cap = 0 ∧
    Vec.moveAssign false dst src = (src, dst) ∧
    Vec.moveAssign true dst dst = (dst, dst) :=
  ⟨rfl, rfl, rfl, rfl, rfl⟩

/-- C5: a growth-triggering push reallocates to `max(1, 2 * capacity)`
(using the invariant `size ≤ capacity`, under which the code's
`size_ == 0 ? 1 : size_ * 2` equals it), a push that fits the current
capacity never changes it, and successive pushes from an empty vector
produce capacities 1, 2, 4, 4, 8, 8, 8, 8, 16. -/
theorem c5_growth_policy (v : Vec α) (x : α) (h : v.size ≤ v.cap) :
    (v.cap < v.size + 1 → (v.pushBack x).cap = max 1 (2 * v.cap)) ∧
    (v.size + 1 ≤ v.cap → (v.pushBack x).cap = v.cap) ∧
    (List.range 9).map
        (fun k => (applyOps Vec.empty (List.replicate (k + 1) (VOp.push (0 : Nat)))).cap)
      = [1, 2, 4, 4, 8, 8, 8, 8, 16] := by
  refine ⟨?_, ?_, by decide⟩
  · intro hlt
    have hcap : v.cap = v.size := by omega
    rw [pushBack_cap]
    have hc : ¬ (v.size + 1 ≤ v.cap) := by omega
    simp only [hc, if_false]
    unfold newCapacity
    by_cases hz : v.size = 0
    · rw [if_pos hz, hcap, hz]
      omega
    · rw [if_neg hz, hcap]
      omega
  · intro hle
    rw [pushBack_cap]
    simp [hle]

/-- Witness for C5: pushing onto the empty vector grows capacity to 1. -/
theorem c5_growth_policy_witness :
    (Vec.empty : Vec Nat).size ≤ (Vec.empty : Vec Nat).cap ∧
    ((Vec.empty : Vec Nat).cap < (Vec.empty : Vec Nat).size + 1 →
      ((Vec.empty : Vec Nat).pushBack 0).cap = max 1 (2 * (Vec.empty : Vec Nat).cap)) :=
  ⟨by decide, (c5_growth_policy (Vec.empty : Vec Nat) 0 (by decide)).1⟩

/-- C6: `Erase` at index `i` removes exactly that element, shifts the
following elements one slot toward the front in order, decrements the length,
keeps the capacity, and returns position `i` (the slot now holding the next
element, or `end()` if the last element was removed); `[a, b, c, d]` with
erase at index 1 yields `[a, c, d]`. -/
theorem c6_erase (v : Vec α) (i : Nat) (hi : i < v.size) :
    (v.erase i).1.elems = v.elems.take i ++ v.elems.drop (i + 1) ∧
    (v.erase i).1.size = v.size - 1 ∧
    (v.erase i).2 = i ∧
    (v.erase i).1.cap = v.cap ∧
    ∀ a b c d : α, (Vec.erase ⟨[a, b, c, d], 4⟩ 1).1 = ⟨[a, c, d], 4⟩ := by
  refine ⟨eraseVec_fst_elems v i hi, ?_, eraseVec_snd v i, eraseVec_fst_cap v i, ?_⟩
  · show (v.erase i).1.elems.length = v.size - 1
    have hi' : i < v.elems.length := hi
    rw [eraseVec_fst_elems v i hi, List.length_append,
      List.length_take_of_le (Nat.le_of_lt hi'), List.length_drop]
    simp only [Vec.size]
    omega
  · intro a b c d
    rfl

/-- Witness for C6: erase index 1 of `[1, 2, 3, 4]`. -/
theorem c6_erase_witness :
    1 < (Vec.mk [1, 2, 3, 4] 4 : Vec Nat).size ∧
    (Vec.erase (Vec.mk [1, 2, 3, 4] 4 : Vec Nat) 1).1.elems
      = [1, 2, 3, 4].take 1 ++ [1, 2, 3, 4].drop 2 := by
  have h := c6_erase (Vec.mk [1, 2, 3, 4] 4 : Vec Nat) 1 (by decide)
  exact ⟨by decide, h.1⟩

/-- C7: copy-assignment makes the destination's length and elements equal the
source's; when the destination's capacity cannot hold the source the result
is a full copy with capacity exactly the source's length (copy-and-swap),
otherwise the capacity is kept (element-wise reuse); self-assignment is a
no-op. -/
theorem c7_copy_assignment (dst src : Vec α) :
    (Vec.copyAssign false dst src).elems = src.elems ∧
    (Vec.copyAssign false dst src).size = src.size ∧
    (dst.cap < src.size → Vec.copyAssign false dst src = ⟨src.elems, src.size⟩) ∧
    (src.size ≤ dst.cap → (Vec.copyAssign false dst src).cap = dst.cap) ∧
    (∀ u : Vec α, Vec.copyAssign true u u = u) := by
  refine ⟨copyAssign_elems dst src, copyAssign_size dst src, ?_, ?_, fun u => rfl⟩
  · intro h1
    unfold Vec.copyAssign
    simp only [Bool.false_eq_true, if_false, h1, if_true]
    rfl
  · intro hle
    rw [copyAssign_cap]
    have h1 : ¬ dst.cap < src.size := by omega
    simp [h1]

/-- Witness for C7: assigning `[7, 8, 9]` over `[1]` with capacity 1 takes
the copy-and-swap branch. -/
theorem c7_copy_assignment_witness :
    (Vec.mk [1] 1 : Vec Nat).cap < (Vec.mk [7, 8, 9] 3 : Vec Nat).size ∧
    Vec.copyAssign false (Vec.mk [1] 1 : Vec Nat) (Vec.mk [7, 8, 9] 3)
      = Vec.mk [7, 8, 9] 3 := by
  have h := c7_copy_assignment (Vec.mk [1] 1 : Vec Nat) (Vec.mk [7, 8, 9] 3)
  exact ⟨by decide, h.2.2.1 (by decide)⟩

/-- C8 counterexample: for the sequence `[PopBack, PushBack 5]` on an empty
vector the final size is 1, while "number of pushes minus number of pops
floored at 0" is 0. -/
theorem c8_counterexample :
    (applyOps (Vec.empty : Vec Nat) [VOp.pop, VOp.push 5]).size
      ≠ countPush [VOp.pop, VOp.push (5 : Nat)] - countPop [VOp.pop, VOp.push (5 : Nat)] := by
  decide

/-- C8 (amended): every public operation preserves `0 ≤ length ≤ capacity`,
and for every sequence of `PushBack`/`PopBack` from an empty vector the final
size equals the stepwise count (each push adds one, each pop subtracts one
floored at zero at that step — a pop on an empty vector is a no-op), with
`capacity ≥ size` after every prefix of the sequence. -/
theorem c8_invariant_and_counting (v w : Vec α) (x d : α) (i n : Nat)
    (ops : List (VOp α)) (hv : v.size ≤ v.cap) (hw : w.size ≤ w.cap)
    (hi : i ≤ v.size) :
    (v.pushBack x).size ≤ (v.pushBack x).cap ∧
    v.popBack.size ≤ v.popBack.cap ∧
    (v.emplace i x).1.size ≤ (v.emplace i x).1.cap ∧
    (v.erase i).1.size ≤ (v.erase i).1.cap ∧
    (v.reserve n).size ≤ (v.reserve n).cap ∧
    (Vec.resize d v n).size ≤ (Vec.resize d v n).cap ∧
    (Vec.ofSize d n).size ≤ (Vec.ofSize d n).cap ∧
    (Vec.copyCtor w).size ≤ (Vec.copyCtor w).cap ∧
    (Vec.copyAssign false v w).size ≤ (Vec.copyAssign false v w).cap ∧
    (Vec.moveCtor w).1.size ≤ (Vec.moveCtor w).1.cap ∧
    (Vec.moveCtor w).2.size ≤ (Vec.moveCtor w).2.cap ∧
    (Vec.moveAssign false v w).1.size ≤ (Vec.moveAssign false v w).1.cap ∧
    (Vec.moveAssign false v w).2.size ≤ (Vec.moveAssign false v w).2.cap ∧
    (applyOps Vec.empty ops).size = stepSize 0 ops ∧
    (∀ k, (applyOps (Vec.empty : Vec α) (ops.take k)).size
      ≤ (applyOps Vec.empty (ops.take k)).cap) := by
  refine ⟨pushBack_inv v x hv, ?_, emplace_inv v i x hi, ?_, ?_, ?_, ?_, ?_, ?_,
    ?_, ?_, ?_, ?_, ?_, ?_⟩
  · rw [popBack_size, popBack_cap]
    omega
  · have h1 : (v.erase i).1.size ≤ v.size - 1 := List.length_take_le _ _
    have h2 : (v.erase i).1.cap = v.cap := rfl
    omega
  · unfold Vec.reserve
    by_cases hr : v.cap < n
    · rw [if_pos hr]
      show v.elems.length ≤ n
      simp only [Vec.size] at hv
      omega
    · rw [if_neg hr]
      exact hv
  · unfold Vec.resize
    by_cases h1 : n = v.size
    · rw [if_pos h1]
      exact hv
    · rw [if_neg h1]
      by_cases h2 : n < v.size
      · rw [if_pos h2]
        show (v.elems.take n).length ≤ v.cap
        have h3 := List.length_take_le n v.elems
        simp only [Vec.size] at hv h2
        omega
      · rw [if_neg h2]
        show ((v.reserve n).elems ++ List.replicate (n - v.size) d).length ≤ (v.reserve n).cap
        rw [List.length_append, List.length_replicate, reserve_elems, reserve_cap]
        simp only [Vec.size] at hv h2 ⊢
        by_cases hr : v.cap < n
        · rw [if_pos hr]
          omega
        · rw [if_neg hr]
          omega
  · show (List.replicate n d).length ≤ n
    rw [List.length_replicate]
  · exact Nat.le_refl w.size
  · rw [copyAssign_size, copyAssign_cap]
    by_cases h1 : v.cap < w.size
    · rw [if_pos h1]
    · rw [if_neg h1]
      omega
  · exact hw
  · exact Nat.le_refl 0
  · exact hw
  · exact hv
  · exact (applyOps_size_inv ops Vec.empty (Nat.le_refl 0)).1
  · exact fun k => (applyOps_size_inv (ops.take k) Vec.empty (Nat.le_refl 0)).2

/-- Witness for C8 (amended) at concrete inputs. -/
theorem c8_invariant_and_counting_witness :
    (Vec.mk [1] 2 : Vec Nat).size ≤ (Vec.mk [1] 2 : Vec Nat).cap ∧
    (Vec.mk [4, 5] 2 : Vec Nat).size ≤ (Vec.mk [4, 5] 2 : Vec Nat).cap ∧
    (1 : Nat) ≤ (Vec.mk [1] 2 : Vec Nat).size ∧
    (applyOps (Vec.empty : Vec Nat) [VOp.pop, VOp.push 5, VOp.push 6, VOp.pop]).size
      = stepSize 0 [VOp.pop, VOp.push (5 : Nat), VOp.push 6, VOp.pop] := by
  have h := c8_invariant_and_counting (Vec.mk [1] 2 : Vec Nat) (Vec.mk [4, 5] 2) 9 0 1 3
    [VOp.pop, VOp.push 5, VOp.push 6, VOp.pop] (by decide) (by decide) (by decide)
  exact ⟨by decide, by decide, by decide, h.2.2.2.2.2.2.2.2.2.2.2.2.2.1⟩

/-- C9: `PopBack` on an empty vector is a no-op and not an error; on a
non-empty vector it destroys the last live element (the live region loses its
final entry) and decrements the length by one, keeping the capacity. -/
theorem c9_popback (v : Vec α) :
    (v.size = 0 → v.popBack = v) ∧
    (0 < v.size →
      v.popBack.elems = v.elems.dropLast ∧
      v.popBack.size = v.size - 1 ∧
      v.popBack.cap = v.cap) := by
  constructor
  · intro h0
    unfold Vec.popBack
    rw [if_neg (by omega)]
  · intro hpos
    refine ⟨?_, popBack_size v, popBack_cap v⟩
    unfold Vec.popBack
    rw [if_pos hpos]
    show v.elems.take (v.size - 1) = v.elems.dropLast
    rw [List.dropLast_eq_take]
    rfl

/-- Witness for C9 on the empty vector and on `[1, 2]`. -/
theorem c9_popback_witness :
    (Vec.empty : Vec Nat).popBack = Vec.empty ∧
    (Vec.mk [1, 2] 2 : Vec Nat).popBack.elems = [1, 2].dropLast := by
  exact ⟨(c9_popback (Vec.empty : Vec Nat)).1 (by decide),
    ((c9_popback (Vec.mk [1, 2] 2 : Vec Nat)).2 (by decide)).1⟩

/-- C10: `Resize(n)` with `n` equal to the current size returns immediately
and leaves the vector completely unchanged. -/
theorem c10_resize_same_size_noop (d : α) (v : Vec α) (n : Nat) (h : n = v.size) :
    Vec.resize d v n = v := by
  unfold Vec.resize
  rw [if_pos h]

/-- Witness for C10: resizing `[1, 2, 3]` (capacity 5) to size 3. -/
theorem c10_resize_same_size_noop_witness :
    (3 : Nat) = (Vec.mk [1, 2, 3] 5 : Vec Nat).size ∧
    Vec.resize 0 (Vec.mk [1, 2, 3] 5 : Vec Nat) 3 = Vec.mk [1, 2, 3] 5 :=
  ⟨by decide, c10_resize_same_size_noop 0 (Vec.mk [1, 2, 3] 5 : Vec Nat) 3 (by decide)⟩

end AdvancedVector
